import Mathlib

/-!
Shallow embedding of the flag-reduction core of `config_gen.py` (YCM-Generator).

The embedding models:
  * `split_flags` / `unbalanced_quotes` (tokenization with quote re-merging),
  * `parse_flags` (the log-to-flag-set reducer), including the `temp_output`
    skip regex, the flags whitelist regex, the `-D NAME=VALUE` regex, the
    word-size collapse and the duplicate-macro resolution,
  * the language-selection / failure logic of `main` (lines 109-140).

Python data structures are modelled as follows: a Python `set` is a
duplicate-free list together with an order-insensitive use discipline (every
use in the source is order-insensitive: `add`, `remove`, comprehension + `max`,
`len`, `sorted`); a Python `dict` is an association list in insertion order;
`sorted`/`list.sort` are modelled by insertion sort with respect to the same
total order Python 2 uses on the values involved (strings byte-lexicographic;
tuples lexicographic; `str` sorts before `tuple`, as Python 2 orders distinct
types by type name). Log lines are newline-free strings (the reducer receives
one line per invocation; the trailing newline can never contribute to a match
of the `temp_output` regex because `.` does not match a newline and every
literal part of that regex is newline-free, and `split()` discards whitespace).
Machine integers do not occur (all counts are unbounded Python ints).
-/

namespace YcmGen

/-! ### Character-list lexicographic order (Python string comparison) -/

/-- Byte-lexicographic `≤` on strings as char lists; for UTF-8 encoded
strings codepoint order and byte order agree, so this is Python 2's `str`
comparison. -/
def charListLE : List Char → List Char → Bool
  | [], _ => true
  | _ :: _, [] => false
  | a :: as, b :: bs => if a = b then charListLE as bs else decide (a < b)

/-- Python string `≤` used by `sorted`/`max` on flag strings. -/
def strLE (s t : String) : Bool := charListLE s.data t.data

/-! ### Flags: Python's `str`-or-`tuple` values, with Python 2's sort order -/

/-- A flag as built by `parse_flags`: either a bare option token, or an
(option, filename-argument) pair. -/
inductive Flag where
  | str (s : String)
  | pair (opt arg : String)
deriving DecidableEq

/-- The total order Python 2's `sorted` applies to the `flags` set: all
strings sort before all tuples (Python 2 orders distinct types by type name,
and `str` < `tuple`); strings byte-lexicographically; tuples lexicographically
component-wise. -/
def flagLE : Flag → Flag → Bool
  | .str s, .str t => strLE s t
  | .str _, .pair _ _ => true
  | .pair _ _, .str _ => false
  | .pair a b, .pair c d => if a = c then strLE b d else strLE a c

/-! ### Insertion sort (models Python's `sorted` / `list.sort`)

Python's `sorted` returns the unique ascending reordering of its input (for a
total order the sorted sequence of a given multiset of values is unique), so
any correct sorting algorithm is extensionally the same function; insertion
sort is used because it is structurally recursive and hence kernel-reducible. -/

/-- Insert an element into a sorted list. -/
def insertSorted (le : α → α → Bool) (a : α) : List α → List α
  | [] => [a]
  | b :: bs => if le a b then a :: b :: bs else b :: insertSorted le a bs

/-- Insertion sort with respect to a boolean total order. -/
def isort (le : α → α → Bool) (l : List α) : List α := l.foldr (insertSorted le) []

/-! ### The `temp_output` skip regex

`re.compile("(-x assembler)|(-o ([a-zA-Z0-9._].tmp))|(/dev/null)")`, used with
`.search`: the line is skipped when any position of it starts a match for one
of the three alternatives.  In the second alternative `[a-zA-Z0-9._]` is a
single character of that class and `.` matches one arbitrary character, so it
matches `-o ` followed by a class character, any character, and the literal
letters `tmp`. -/

/-- One character of the class `[a-zA-Z0-9._]`. -/
def isOTmpClass (c : Char) : Bool := c.isAlpha || c.isDigit || c = '.' || c = '_'

/-- Does the `-o ([a-zA-Z0-9._].tmp)` alternative match starting here? -/
def oTmpAt : List Char → Bool
  | '-' :: 'o' :: ' ' :: c1 :: _ :: 't' :: 'm' :: 'p' :: _ => isOTmpClass c1
  | _ => false

/-- Does one of the three alternatives of `temp_output` match starting here? -/
def tempOutputAt (l : List Char) : Bool :=
  "-x assembler".data.isPrefixOf l || oTmpAt l || "/dev/null".data.isPrefixOf l

/-- `temp_output.search(line)`: some position of the line starts a match. -/
def tempOutputSearch : List Char → Bool
  | [] => false
  | c :: rest => tempOutputAt (c :: rest) || tempOutputSearch rest

/-! ### The flags whitelist regex

`"^-[iIDF].*$|^-W[^,]*$|^-std=[a-z0-9+]+$|^-(no)?std(lib|inc)$|^-m[0-9]+$"`,
used with `.match` on whitespace-free tokens (so `.` and `$` behave as plain
any-character and end-of-token). -/

/-- Alternative `-[iIDF].*`: a dash, one of `i I D F`, then anything. -/
def wlIncludeDefine : List Char → Bool
  | '-' :: c :: _ => c = 'i' || c = 'I' || c = 'D' || c = 'F'
  | _ => false

/-- Alternative `-W[^,]*`: `-W` followed by comma-free text. -/
def wlWarning : List Char → Bool
  | '-' :: 'W' :: rest => rest.all (fun c => c != ',')
  | _ => false

/-- One character of the class `[a-z0-9+]`. -/
def isStdChar (c : Char) : Bool := c.isLower || c.isDigit || c = '+'

/-- Alternative `-std=[a-z0-9+]+`. -/
def wlStd : List Char → Bool
  | '-' :: 's' :: 't' :: 'd' :: '=' :: rest => !rest.isEmpty && rest.all isStdChar
  | _ => false

/-- Alternative `-(no)?std(lib|inc)`: exactly one of four bare tokens. -/
def wlStdlib (w : List Char) : Bool :=
  w = "-stdlib".data || w = "-stdinc".data || w = "-nostdlib".data || w = "-nostdinc".data

/-- Alternative `-m[0-9]+` (also `mRegex` in the word-size collapse). -/
def wlWordSize : List Char → Bool
  | '-' :: 'm' :: rest => !rest.isEmpty && rest.all Char.isDigit
  | _ => false

/-- `flags_whitelist.match(word)`: the token fully matches one alternative. -/
def whitelistMatch (w : List Char) : Bool :=
  wlIncludeDefine w || wlWarning w || wlStd w || wlStdlib w || wlWordSize w

/-! ### The `-D` definition regex

`re.compile("-D([a-zA-Z0-9_]+)=(.*)")` used with `.match`: the token must
start with `-D`, then a nonempty run of word characters (the macro name), then
`=`; the rest is the value.  Because the character class cannot match `=`,
greedy matching with backtracking succeeds exactly when the maximal run of
word characters after `-D` is nonempty and immediately followed by `=`. -/

/-- One character of the class `[a-zA-Z0-9_]`. -/
def isWordChar (c : Char) : Bool := c.isAlpha || c.isDigit || c = '_'

/-- `define_regex.match(word)`, returning (group 1, group 2) on success. -/
def defineMatch : List Char → Option (List Char × List Char)
  | '-' :: 'D' :: rest =>
    match rest.takeWhile isWordChar, rest.dropWhile isWordChar with
    | _ :: _, '=' :: value => some (rest.takeWhile isWordChar, value)
    | _, _ => none
  | _ => none

/-! ### Tokenization: `split_flags` and `unbalanced_quotes` -/

/-- Python `str.isspace` characters relevant to `split()`. -/
def isPySpace (c : Char) : Bool :=
  c = ' ' || c = '\t' || c = '\n' || c = '\r' || c = '\x0b' || c = '\x0c'

/-- Accumulator-based whitespace splitter: `line.strip().split()` (the strip
is subsumed by `split()` without arguments, which drops empty fields). -/
def splitWsAux : List Char → List Char → List (List Char)
  | [], cur => if cur.isEmpty then [] else [cur.reverse]
  | c :: rest, cur =>
    if isPySpace c then
      if cur.isEmpty then splitWsAux rest [] else cur.reverse :: splitWsAux rest []
    else splitWsAux rest (c :: cur)

/-- Pass 1 of `split_flags`: split the line on whitespace runs. -/
def splitWs (l : List Char) : List (List Char) := splitWsAux l []

/-- `unbalanced_quotes(s)`: an odd number of single or of double quotes. -/
def unbalanced_quotes (s : List Char) : Bool :=
  (s.count '\'') % 2 = 1 || (s.count '"') % 2 = 1

/-- Pass 2 of `split_flags`: merge words while the last word so far has
unbalanced quotes (the accumulator holds the result reversed). -/
def mergeQuoted : List (List Char) → List (List Char) → List (List Char)
  | acc, [] => acc.reverse
  | [], w :: ws => mergeQuoted [w] ws
  | last :: acc, w :: ws =>
    if unbalanced_quotes last then mergeQuoted ((last ++ ' ' :: w) :: acc) ws
    else mergeQuoted (w :: last :: acc) ws

/-- `split_flags(line)`: whitespace split, then quote-balancing merge. -/
def split_flags (line : List Char) : List (List Char) := mergeQuoted [] (splitWs line)

/-! ### The per-line token loop and the parse state -/

/-- The `filename_flags` list: options that bundle a following filename. -/
def filename_flags : List (List Char) :=
  ["-o".data, "-I".data, "-isystem".data, "-iquote".data, "-include".data,
   "-imacros".data, "-isysroot".data]

/-- `word[0] == '-'` (words produced by `split()` are never empty; the empty
case is unreachable and mapped to `false`). -/
def headIsDash : List Char → Bool
  | c :: _ => c = '-'
  | [] => false

/-- Python `set.add`: the set is a duplicate-free list. -/
def setAdd (l : List Flag) (f : Flag) : List Flag := if f ∈ l then l else l ++ [f]

/-- The macro-definition dictionary: name, then the distinct values seen for
it in first-occurrence order. -/
abbrev Defines := List (String × List String)

/-- Record one `-DNAME=VALUE` occurrence: a new name opens a fresh entry, a
new value for a known name is appended, a repeated value is a no-op. -/
def addDefine : Defines → String → String → Defines
  | [], n, v => [(n, [v])]
  | (m, vs) :: rest, n, v =>
    if m = n then (m, if v ∈ vs then vs else vs ++ [v]) :: rest
    else (m, vs) :: addDefine rest n v

/-- The `for (i, word) in enumerate(words)` loop body of `parse_flags`:
whitelist filter, macro extraction, and filename-argument bundling (the loop
looks one token ahead but never skips the argument token). -/
def processWords : List (List Char) → List Flag → Defines → List Flag × Defines
  | [], fl, df => (fl, df)
  | w :: rest, fl, df =>
    if headIsDash w && whitelistMatch w then
      match defineMatch w with
      | some (n, v) => processWords rest fl (addDefine df (String.mk n) (String.mk v))
      | none =>
        match rest.head? with
        | none => (setAdd fl (Flag.str (String.mk w)), df)
        | some nxt =>
          if w ∈ filename_flags ∧ headIsDash nxt = false then
            processWords rest (setAdd fl (Flag.pair (String.mk w) (String.mk nxt))) df
          else processWords rest (setAdd fl (Flag.str (String.mk w))) df
    else processWords rest fl df

/-- The mutable state of the `for line in build_log` loop. -/
structure PState where
  lineCount : Nat
  skipCount : Nat
  flags : List Flag
  defines : Defines
deriving DecidableEq

/-- The initial state of `parse_flags`. -/
def initState : PState := ⟨0, 0, [], []⟩

/-- One iteration of the `for line in build_log` loop. -/
def processLine (st : PState) (line : String) : PState :=
  if tempOutputSearch line.data then { st with skipCount := st.skipCount + 1 }
  else
    let r := processWords (split_flags line.data) st.flags st.defines
    { st with lineCount := st.lineCount + 1, flags := r.1, defines := r.2 }

/-! ### Post-processing: word-size collapse and macro resolution -/

/-- `mRegex.match(f)` on a flag value: true only for bare `-m[0-9]+` tokens
(`isinstance(f, basestring)` excludes tuples). -/
def isWordSizeFlag : Flag → Bool
  | .str s => wlWordSize s.data
  | .pair _ _ => false

/-- Python `max` over a nonempty list (ties keep the earlier element, which
for a total order is the same value). -/
def maxFlag : List Flag → Option Flag
  | [] => none
  | f :: fs => some (fs.foldl (fun m x => if flagLE m x then x else m) f)

/-- Lines 401-410: if more than one word-size flag was collected, remove them
all and re-insert only the maximum one. -/
def collapseWordSize (flags : List Flag) : List Flag :=
  let wf := flags.filter isWordSizeFlag
  if 1 < wf.length then
    match maxFlag wf with
    | some m => setAdd (flags.filter (fun f => !isWordSizeFlag f)) m
    | none => flags
  else flags

/-- Line 412-418: the value emitted for one macro name; with several distinct
values the list is sorted in place and its first element is taken. -/
def resolveValue (vs : List String) : String :=
  if 1 < vs.length then (isort strLE vs).headD "" else vs.headD ""

/-- The `-D{}={}` flag string emitted for one dictionary entry. -/
def defineFlagStr (n v : String) : String := "-D" ++ n ++ "=" ++ v

/-- Lines 412-418: add one resolved `-DNAME=VALUE` flag per macro name,
recording a `(number of values, name)` warning for each ambiguous name.
Python 2 iterates the dictionary in unspecified hash order; this model
iterates in insertion order, which leaves the resulting flag set unchanged
(only insertions into a set) and fixes one possible order for the warning
list (the program's warning ORDER is not asserted anywhere, only
membership). -/
def resolveDefines : Defines → List Flag → List Flag × List (Nat × String)
  | [], fl => (fl, [])
  | (n, vs) :: rest, fl =>
    let r := resolveDefines rest (setAdd fl (Flag.str (defineFlagStr n (resolveValue vs))))
    if 1 < vs.length then (r.1, (vs.length, n) :: r.2) else r

/-! ### `parse_flags` and the `main` selection logic -/

/-- `parse_flags` together with the warnings it prints:
`(line_count, skip_count, sorted flags, warnings)`. -/
def parse_flagsW (log : List String) : Nat × Nat × List Flag × List (Nat × String) :=
  ((log.foldl processLine initState).lineCount,
   (log.foldl processLine initState).skipCount,
   isort flagLE (resolveDefines (log.foldl processLine initState).defines
     (collapseWordSize ((log.foldl processLine initState).flags))).1,
   (resolveDefines (log.foldl processLine initState).defines
     (collapseWordSize ((log.foldl processLine initState).flags))).2)

/-- `parse_flags(build_log)`: `(line_count, skip_count, sorted(flags))`. -/
def parse_flags (log : List String) : Nat × Nat × List Flag :=
  ((parse_flagsW log).1, (parse_flagsW log).2.1, (parse_flagsW log).2.2.1)

/-- The two observed languages. -/
inductive Lang where
  | c
  | cxx
deriving DecidableEq

/-- The externally observable outcome of `main` after the two `parse_flags`
calls (lines 109-140): the process exit status (`None` on success is exit 0),
the `(language, flags)` handed to the config emitter if any, and whether the
two temporary build logs are deleted on exit (`NamedTemporaryFile` deletes on
close by default; the empty-log path sets `delete = False` on both logs). -/
structure RunResult where
  exitCode : Nat
  artifact : Option (Lang × List Flag)
  logsDeleted : Bool
deriving DecidableEq

/-- Line 335: an unrecognized build system aborts with `sys.exit(2)` before
any log is parsed. -/
def unrecognizedBuildSystemExit : Nat := 2

/-- Lines 109-140 of `main`: parse both logs, apply the `-x` language
override by zeroing the other language's count, fail with exit status 3 when
both counts are zero, otherwise pick C on a strictly greater C count and C++
otherwise (ties included). -/
def runReduction (force : Option Lang) (cLog cxxLog : List String) : RunResult :=
  let pc := parse_flags cLog
  let px := parse_flags cxxLog
  let cCount := if force = some Lang.cxx then 0 else pc.1
  let cxxCount := if force = some Lang.c then 0 else px.1
  if cCount = 0 ∧ cxxCount = 0 then
    { exitCode := 3, artifact := none, logsDeleted := false }
  else if cxxCount < cCount then
    { exitCode := 0, artifact := some (Lang.c, pc.2.2), logsDeleted := true }
  else
    { exitCode := 0, artifact := some (Lang.cxx, px.2.2), logsDeleted := true }

/-! ### Specification views used by the verification

The definitions below are not part of the embedded program; they are
order-insensitive restatements of parts of it (per-line contribution lists,
dictionary views, well-formedness predicates), used to state and prove the
claims. -/

/-- `addDefine` applied to one `(name, value)` pair. -/
def addDefinePair (d : Defines) (p : String × String) : Defines := addDefine d p.1 p.2

/-- The non-`-D` flags one admitted line contributes, in loop order (this is
the flags component of `processWords` with the accumulator stripped). -/
def lineFlags : List (List Char) → List Flag
  | [] => []
  | w :: rest =>
    if headIsDash w && whitelistMatch w then
      match defineMatch w with
      | some _ => lineFlags rest
      | none =>
        match rest.head? with
        | none => [Flag.str (String.mk w)]
        | some nxt =>
          if w ∈ filename_flags ∧ headIsDash nxt = false then
            Flag.pair (String.mk w) (String.mk nxt) :: lineFlags rest
          else Flag.str (String.mk w) :: lineFlags rest
    else lineFlags rest

/-- The `-DNAME=VALUE` pairs one admitted line contributes, in loop order. -/
def linePairs : List (List Char) → List (String × String)
  | [] => []
  | w :: rest =>
    if headIsDash w && whitelistMatch w then
      match defineMatch w with
      | some nv => (String.mk nv.1, String.mk nv.2) :: linePairs rest
      | none => linePairs rest
    else linePairs rest

/-- Whether a line is skipped by the admission filter. -/
def lineSkipped (line : String) : Bool := tempOutputSearch line.data

/-- All non-`-D` flag contributions of the admitted lines of a log. -/
def logFlags (log : List String) : List Flag :=
  ((log.filter (fun l => !lineSkipped l)).map (fun l => lineFlags (split_flags l.data))).flatten

/-- All `-DNAME=VALUE` contributions of the admitted lines of a log. -/
def logPairs (log : List String) : List (String × String) :=
  ((log.filter (fun l => !lineSkipped l)).map (fun l => linePairs (split_flags l.data))).flatten

/-- The value list the definition dictionary holds for a name (empty when the
name is absent; entries are found in order, as Python's dict lookup). -/
def valsOf : Defines → String → List String
  | [], _ => []
  | (m, vs) :: rest, n => if m = n then vs else valsOf rest n

/-- The names of the definition dictionary, in insertion order. -/
def namesOf (d : Defines) : List String := d.map Prod.fst

/-- Well-formedness of the definition dictionary: distinct names, and each
name holds a nonempty duplicate-free value list. -/
def WFdf (d : Defines) : Prop :=
  (namesOf d).Nodup ∧ ∀ e ∈ d, e.2 ≠ [] ∧ e.2.Nodup

/-- Extensional equivalence of two definition dictionaries: the same names
and, per name, the same set of recorded values. -/
def DfEquiv (d1 d2 : Defines) : Prop :=
  (∀ n, n ∈ namesOf d1 ↔ n ∈ namesOf d2) ∧ ∀ n v, v ∈ valsOf d1 n ↔ v ∈ valsOf d2 n

/-- Propositional restatement of the whitelist (used to check the regex
against the spec's description of it). -/
def whitelistSpec (w : List Char) : Prop :=
  (∃ c rest, w = '-' :: c :: rest ∧ (c = 'i' ∨ c = 'I' ∨ c = 'D' ∨ c = 'F'))
  ∨ (∃ rest, w = '-' :: 'W' :: rest ∧ ',' ∉ rest)
  ∨ (∃ rest, w = '-' :: 's' :: 't' :: 'd' :: '=' :: rest ∧ rest ≠ [] ∧
      ∀ c ∈ rest, c.isLower = true ∨ c.isDigit = true ∨ c = '+')
  ∨ w = "-stdlib".data ∨ w = "-stdinc".data ∨ w = "-nostdlib".data ∨ w = "-nostdinc".data
  ∨ (∃ rest, w = '-' :: 'm' :: rest ∧ rest ≠ [] ∧ ∀ c ∈ rest, c.isDigit = true)

/-- Propositional restatement of the `temp_output` admission-filter regex: the
line contains `-x assembler`, or `-o ` followed by a `[a-zA-Z0-9._]` character,
one arbitrary character and the letters `tmp`, or `/dev/null`. -/
def TempOutputSpec (l : List Char) : Prop :=
  (∃ p s, l = p ++ "-x assembler".data ++ s)
  ∨ (∃ p c1 c2 s, l = p ++ '-' :: 'o' :: ' ' :: c1 :: c2 :: 't' :: 'm' :: 'p' :: s ∧
      (c1.isAlpha = true ∨ c1.isDigit = true ∨ c1 = '.' ∨ c1 = '_'))
  ∨ (∃ p s, l = p ++ "/dev/null".data ++ s)

/-- The per-flag invariant of claim C10: a bare flag starts with `-` and is
never the bare `-o`; a pair never has `-o` as its option. -/
def FlagOK : Flag → Prop
  | .str s => s.data.head? = some '-' ∧ s ≠ "-o"
  | .pair o _ => o ≠ "-o"

/-- The invariant of every flag accumulated by the token loop: a bare flag is
a whitelisted non-`-D<name>=<value>` token, a pair has a whitelisted option
from the `filename_flags` list. -/
def PFlagInv : Flag → Prop
  | .str s => whitelistMatch s.data = true ∧ defineMatch s.data = none
  | .pair o _ => whitelistMatch o.data = true ∧ o.data ∈ filename_flags

/-- The resolved `-D` flags of the dictionary, in entry order. -/
def dfFlags (d : Defines) : List Flag :=
  d.map (fun e => Flag.str (defineFlagStr e.1 (resolveValue e.2)))

/-- Is this flag a `-D<name>=` definition for the given macro name? -/
def isDefFor (n : String) : Flag → Bool
  | .str s => (("-D" ++ n ++ "=").data).isPrefixOf s.data
  | .pair _ _ => false

/-! ### Order and sorting lemmas -/

theorem charListLE_total : ∀ a b, charListLE a b = true ∨ charListLE b a = true
  | [], _ => Or.inl rfl
  | _ :: _, [] => Or.inr rfl
  | a :: as, b :: bs => by
    by_cases hab : a = b
    · subst hab
      simpa [charListLE] using charListLE_total as bs
    · rcases lt_or_gt_of_ne hab with h | h
      · exact Or.inl (by simp [charListLE, hab, h])
      · exact Or.inr (by simp [charListLE, Ne.symm hab, not_lt_of_gt h, h])

theorem charListLE_antisymm : ∀ a b, charListLE a b = true → charListLE b a = true → a = b
  | [], [], _, _ => rfl
  | [], _ :: _, _, h => by simp [charListLE] at h
  | _ :: _, [], h, _ => by simp [charListLE] at h
  | a :: as, b :: bs, h1, h2 => by
    by_cases hab : a = b
    · subst hab
      simp only [charListLE, if_pos rfl] at h1 h2
      exact congrArg _ (charListLE_antisymm as bs h1 h2)
    · simp only [charListLE, if_neg hab, if_neg (Ne.symm hab), decide_eq_true_eq] at h1 h2
      exact absurd h2 (not_lt_of_gt h1)

theorem charListLE_trans : ∀ a b c, charListLE a b = true → charListLE b c = true →
    charListLE a c = true
  | [], _, _, _, _ => rfl
  | _ :: _, [], _, h, _ => by simp [charListLE] at h
  | _ :: _, _ :: _, [], _, h => by simp [charListLE] at h
  | a :: as, b :: bs, c :: cs, h1, h2 => by
    by_cases hab : a = b <;> by_cases hbc : b = c
    · subst hab; subst hbc
      simp only [charListLE, if_pos rfl] at h1 h2 ⊢
      exact charListLE_trans as bs cs h1 h2
    · subst hab
      simpa [charListLE, hbc] using h2
    · subst hbc
      simpa [charListLE, hab] using h1
    · simp only [charListLE, if_neg hab, if_neg hbc, decide_eq_true_eq] at h1 h2
      have hac : a < c := lt_trans h1 h2
      simp [charListLE, ne_of_lt hac, hac]

theorem strLE_total (s t : String) : strLE s t = true ∨ strLE t s = true :=
  charListLE_total _ _

theorem strLE_antisymm {s t : String} (h1 : strLE s t = true) (h2 : strLE t s = true) :
    s = t := by
  cases s; cases t
  exact congrArg _ (charListLE_antisymm _ _ h1 h2)

theorem strLE_trans {s t u : String} (h1 : strLE s t = true) (h2 : strLE t u = true) :
    strLE s u = true :=
  charListLE_trans _ _ _ h1 h2

theorem flagLE_total : ∀ a b, flagLE a b = true ∨ flagLE b a = true
  | .str s, .str t => strLE_total s t
  | .str _, .pair _ _ => Or.inl rfl
  | .pair _ _, .str _ => Or.inr rfl
  | .pair a b, .pair c d => by
    by_cases hac : a = c
    · subst hac
      simpa [flagLE] using strLE_total b d
    · simpa [flagLE, hac, Ne.symm hac] using strLE_total a c

theorem flagLE_antisymm : ∀ a b, flagLE a b = true → flagLE b a = true → a = b
  | .str s, .str t, h1, h2 => congrArg _ (strLE_antisymm h1 h2)
  | .str _, .pair _ _, _, h2 => by simp [flagLE] at h2
  | .pair _ _, .str _, h1, _ => by simp [flagLE] at h1
  | .pair a b, .pair c d, h1, h2 => by
    by_cases hac : a = c
    · subst hac
      simp only [flagLE, if_pos rfl] at h1 h2
      exact congrArg _ (strLE_antisymm h1 h2)
    · simp only [flagLE, if_neg hac, if_neg (Ne.symm hac)] at h1 h2
      exact absurd (strLE_antisymm h1 h2) hac

theorem flagLE_trans : ∀ a b c, flagLE a b = true → flagLE b c = true → flagLE a c = true
  | .str _, .str _, .str _, h1, h2 => strLE_trans h1 h2
  | .str _, _, .pair _ _, _, _ => rfl
  | .str _, .pair _ _, .str _, _, h2 => by simp [flagLE] at h2
  | .pair _ _, .str _, _, h1, _ => by simp [flagLE] at h1
  | .pair a b, .pair c d, .str _, _, h2 => by simp [flagLE] at h2
  | .pair a b, .pair c d, .pair e f, h1, h2 => by
    by_cases hac : a = c <;> by_cases hce : c = e
    · subst hac; subst hce
      simp only [flagLE, if_pos rfl] at h1 h2 ⊢
      exact strLE_trans h1 h2
    · subst hac
      simpa [flagLE, hce] using h2
    · subst hce
      simpa [flagLE, hac] using h1
    · simp only [flagLE, if_neg hac, if_neg hce] at h1 h2
      by_cases hae : a = e
      · subst hae
        exact absurd (strLE_antisymm h1 h2) hac
      · simpa [flagLE, hae] using strLE_trans h1 h2

theorem insertSorted_perm (le : α → α → Bool) (a : α) :
    ∀ l : List α, (insertSorted le a l).Perm (a :: l)
  | [] => List.Perm.refl _
  | b :: bs => by
    by_cases h : le a b = true
    · simp [insertSorted, h]
    · simp only [insertSorted, if_neg h]
      exact ((insertSorted_perm le a bs).cons b).trans (List.Perm.swap a b bs)

theorem isort_perm (le : α → α → Bool) : ∀ l : List α, (isort le l).Perm l
  | [] => List.Perm.refl _
  | a :: l => by
    simp only [isort, List.foldr_cons]
    exact (insertSorted_perm le a _).trans ((isort_perm le l).cons a)

theorem insertSorted_pairwise (le : α → α → Bool)
    (total : ∀ x y, le x y = true ∨ le y x = true)
    (tr : ∀ x y z, le x y = true → le y z = true → le x z = true) (a : α) :
    ∀ l : List α, l.Pairwise (fun x y => le x y = true) →
      (insertSorted le a l).Pairwise (fun x y => le x y = true)
  | [], _ => List.pairwise_singleton _ _
  | b :: bs, h => by
    rcases List.pairwise_cons.mp h with ⟨hb, hbs⟩
    by_cases hab : le a b = true
    · simp only [insertSorted, if_pos hab]
      refine List.pairwise_cons.mpr ⟨?_, h⟩
      intro x hx
      rcases List.mem_cons.mp hx with rfl | hx
      · exact hab
      · exact tr a b x hab (hb x hx)
    · simp only [insertSorted, if_neg hab]
      refine List.pairwise_cons.mpr ⟨?_, insertSorted_pairwise le total tr a bs hbs⟩
      intro x hx
      rcases List.mem_cons.mp ((insertSorted_perm le a bs).mem_iff.mp hx) with hxa | hx'
      · subst hxa
        exact (total x b).resolve_left hab
      · exact hb x hx'

theorem isort_pairwise (le : α → α → Bool)
    (total : ∀ x y, le x y = true ∨ le y x = true)
    (tr : ∀ x y z, le x y = true → le y z = true → le x z = true) :
    ∀ l : List α, (isort le l).Pairwise (fun x y => le x y = true)
  | [] => List.Pairwise.nil
  | a :: l => by
    simp only [isort, List.foldr_cons]
    exact insertSorted_pairwise le total tr a _ (isort_pairwise le total tr l)

/-- Two sorted lists that are permutations of each other are equal, given
antisymmetry of the order. -/
theorem sorted_unique (le : α → α → Bool)
    (anti : ∀ x y, le x y = true → le y x = true → x = y) :
    ∀ l₁ l₂ : List α, l₁.Perm l₂ → l₁.Pairwise (fun x y => le x y = true) →
      l₂.Pairwise (fun x y => le x y = true) → l₁ = l₂ := by
  intro l₁ l₂ hp h1 h2
  haveI : IsAntisymm α (fun x y => le x y = true) := ⟨anti⟩
  exact List.eq_of_perm_of_sorted hp h1 h2

/-- Sorting is invariant under permutation of the input. -/
theorem isort_eq_of_perm (le : α → α → Bool)
    (total : ∀ x y, le x y = true ∨ le y x = true)
    (tr : ∀ x y z, le x y = true → le y z = true → le x z = true)
    (anti : ∀ x y, le x y = true → le y x = true → x = y)
    {l₁ l₂ : List α} (h : l₁.Perm l₂) : isort le l₁ = isort le l₂ :=
  sorted_unique le anti _ _ ((isort_perm le l₁).trans (h.trans (isort_perm le l₂).symm))
    (isort_pairwise le total tr l₁) (isort_pairwise le total tr l₂)

/-! ### Set-as-list lemmas -/

theorem mem_setAdd {l : List Flag} {f x : Flag} : x ∈ setAdd l f ↔ x ∈ l ∨ x = f := by
  unfold setAdd
  by_cases h : f ∈ l
  · simp only [if_pos h]
    constructor
    · exact Or.inl
    · rintro (hx | rfl) <;> [exact hx; exact h]
  · simp [if_neg h]

theorem nodup_setAdd {l : List Flag} (h : l.Nodup) (f : Flag) : (setAdd l f).Nodup := by
  unfold setAdd
  by_cases hm : f ∈ l
  · simpa [if_pos hm]
  · rw [if_neg hm]
    exact h.append (List.nodup_singleton f)
      (fun a ha hf => hm (List.mem_singleton.mp hf ▸ ha))

theorem mem_foldl_setAdd : ∀ (L : List Flag) (fl : List Flag) (x : Flag),
    x ∈ L.foldl setAdd fl ↔ x ∈ fl ∨ x ∈ L
  | [], fl, x => by simp
  | f :: L, fl, x => by
    rw [List.foldl_cons, mem_foldl_setAdd L (setAdd fl f) x]
    simp only [mem_setAdd, List.mem_cons]
    tauto

theorem nodup_foldl_setAdd : ∀ (L : List Flag) {fl : List Flag}, fl.Nodup →
    (L.foldl setAdd fl).Nodup
  | [], _, h => h
  | f :: L, _, h => nodup_foldl_setAdd L (nodup_setAdd h f)

/-! ### Decomposing the token loop into per-line contribution lists -/

theorem processWords_eq : ∀ (ws : List (List Char)) (fl : List Flag) (df : Defines),
    processWords ws fl df =
      ((lineFlags ws).foldl setAdd fl, (linePairs ws).foldl addDefinePair df)
  | [], fl, df => rfl
  | w :: rest, fl, df => by
    by_cases h : (headIsDash w && whitelistMatch w) = true
    · rcases hd : defineMatch w with _ | ⟨n, v⟩
      · rcases hr : rest.head? with _ | nxt
        · have hre : rest = [] := by cases rest <;> simp_all
          subst hre
          simp [processWords, lineFlags, linePairs, h, hd]
        · by_cases hp : w ∈ filename_flags ∧ headIsDash nxt = false
          · simp [processWords, lineFlags, linePairs, h, hd, hr, hp,
              processWords_eq rest]
          · simp [processWords, lineFlags, linePairs, h, hd, hr, hp,
              processWords_eq rest]
      · simp [processWords, lineFlags, linePairs, h, hd, processWords_eq rest,
          addDefinePair]
    · simp [processWords, lineFlags, linePairs, h, processWords_eq rest]

theorem logFlags_nil : logFlags [] = [] := rfl

theorem logFlags_cons (line : String) (log : List String) :
    logFlags (line :: log) =
      if lineSkipped line then logFlags log
      else lineFlags (split_flags line.data) ++ logFlags log := by
  by_cases h : lineSkipped line = true <;>
    simp [logFlags, List.filter_cons, h]

theorem logPairs_cons (line : String) (log : List String) :
    logPairs (line :: log) =
      if lineSkipped line then logPairs log
      else linePairs (split_flags line.data) ++ logPairs log := by
  by_cases h : lineSkipped line = true <;>
    simp [logPairs, List.filter_cons, h]

/-- The whole `for line in build_log` loop, decomposed into order-insensitive
counts plus folds over the per-line contribution lists. -/
theorem foldl_processLine : ∀ (log : List String) (st : PState),
    log.foldl processLine st =
      ⟨st.lineCount + log.countP (fun l => !lineSkipped l),
       st.skipCount + log.countP (fun l => lineSkipped l),
       (logFlags log).foldl setAdd st.flags,
       (logPairs log).foldl addDefinePair st.defines⟩
  | [], st => by simp [logFlags, logPairs]
  | line :: log, st => by
    rw [List.foldl_cons, foldl_processLine log, logFlags_cons, logPairs_cons]
    by_cases h : lineSkipped line = true
    · simp only [processLine, lineSkipped] at h ⊢
      rw [if_pos h, if_pos h, if_pos h]
      simp only [List.countP_cons, h, PState.mk.injEq]
      and_intros <;> simp [Nat.add_comm, Nat.add_assoc, Nat.add_left_comm]
    · have h' : tempOutputSearch line.data = false := by
        simpa [lineSkipped] using h
      simp only [processLine, h', Bool.false_eq_true, if_false, lineSkipped, if_neg h]
      rw [processWords_eq]
      simp only [List.countP_cons, h', List.foldl_append, PState.mk.injEq]
      and_intros <;> simp [Nat.add_comm, Nat.add_assoc, Nat.add_left_comm]

/-! ### Dictionary lemmas -/

theorem valsOf_addDefine (d : Defines) (n v : String) (m : String) :
    valsOf (addDefine d n v) m =
      if m = n then (if v ∈ valsOf d n then valsOf d n else valsOf d n ++ [v])
      else valsOf d m := by
  induction d with
  | nil =>
    by_cases hmn : m = n
    · subst hmn; simp [addDefine, valsOf]
    · simp [addDefine, valsOf, hmn, Ne.symm hmn]
  | cons e rest ih =>
    obtain ⟨k, vs⟩ := e
    by_cases hkn : k = n
    · subst hkn
      by_cases hmk : m = k
      · subst hmk; simp [addDefine, valsOf]
      · simp [addDefine, valsOf, hmk, Ne.symm hmk]
    · by_cases hkm : k = m
      · subst hkm
        have hmn : ¬(k = n) := hkn
        simp [addDefine, valsOf, hkn, hmn]
      · simp [addDefine, valsOf, hkn, hkm, ih]

theorem mem_valsOf_addDefine {d : Defines} {n v m w : String} :
    w ∈ valsOf (addDefine d n v) m ↔ w ∈ valsOf d m ∨ (m = n ∧ w = v) := by
  rw [valsOf_addDefine]
  by_cases hmn : m = n
  · rw [if_pos hmn]
    by_cases hv : v ∈ valsOf d n
    · rw [if_pos hv, hmn]
      exact ⟨fun h => Or.inl h, fun h => h.elim id (fun hw => hw.2 ▸ hv)⟩
    · rw [if_neg hv, hmn]
      simp only [List.mem_append, List.mem_singleton]
      tauto
  · rw [if_neg hmn]
    simp [hmn]

theorem mem_namesOf_addDefine {d : Defines} {n v m : String} :
    m ∈ namesOf (addDefine d n v) ↔ m ∈ namesOf d ∨ m = n := by
  induction d with
  | nil => simp [addDefine, namesOf, eq_comm]
  | cons e rest ih =>
    obtain ⟨k, vs⟩ := e
    by_cases hkn : k = n
    · subst hkn
      by_cases hmk : m = k <;> simp [addDefine, namesOf, hmk]
    · simp only [addDefine, if_neg hkn, namesOf, List.map_cons, List.mem_cons]
      rw [show (List.map Prod.fst (addDefine rest n v)) = namesOf (addDefine rest n v) from rfl]
      rw [ih]
      simp [namesOf]
      tauto

theorem WFdf_addDefine {d : Defines} (h : WFdf d) (n v : String) :
    WFdf (addDefine d n v) := by
  obtain ⟨hn, hv⟩ := h
  induction d with
  | nil =>
    refine ⟨by simp [addDefine, namesOf], ?_⟩
    intro e he
    simp only [addDefine, List.mem_singleton] at he
    subst he
    simp
  | cons e rest ih =>
    obtain ⟨k, vs⟩ := e
    have hnRest : (namesOf rest).Nodup := (List.nodup_cons.mp hn).2
    have hkRest : k ∉ namesOf rest := (List.nodup_cons.mp hn).1
    have hvRest : ∀ e ∈ rest, e.2 ≠ [] ∧ e.2.Nodup := fun e he => hv e (List.mem_cons_of_mem _ he)
    have hvHead := hv (k, vs) (List.mem_cons_self _ _)
    by_cases hkn : k = n
    · subst hkn
      refine ⟨by simpa [addDefine, namesOf] using hn, ?_⟩
      intro e he
      simp only [addDefine, if_pos rfl] at he
      rcases List.mem_cons.mp he with heq | he
      · rw [heq]
        by_cases hvv : v ∈ vs
        · simpa [hvv] using hvHead
        · constructor
          · simp [hvv]
          · simp only [if_neg hvv]
            exact List.Nodup.append hvHead.2 (List.nodup_singleton v)
              (fun a ha hf => hvv (List.mem_singleton.mp hf ▸ ha))
      · exact hvRest e he
    · obtain ⟨ihn, ihv⟩ := ih hnRest hvRest
      refine ⟨?_, ?_⟩
      · simp only [addDefine, if_neg hkn, namesOf, List.map_cons]
        refine List.nodup_cons.mpr ⟨?_, ihn⟩
        intro hk
        rcases (mem_namesOf_addDefine : _ ↔ _ ∈ namesOf rest ∨ _).mp hk with hk' | hk'
        · exact hkRest hk'
        · exact hkn hk'
      · intro e he
        simp only [addDefine, if_neg hkn, List.mem_cons] at he
        rcases he with rfl | he
        · exact hvHead
        · exact ihv e he

theorem valsOf_foldl_addDefinePair :
    ∀ (P : List (String × String)) (d : Defines) (m w : String),
      w ∈ valsOf (P.foldl addDefinePair d) m ↔ w ∈ valsOf d m ∨ (m, w) ∈ P
  | [], d, m, w => by simp
  | p :: P, d, m, w => by
    rw [List.foldl_cons, valsOf_foldl_addDefinePair P]
    simp only [addDefinePair, mem_valsOf_addDefine, List.mem_cons, Prod.ext_iff]
    tauto

theorem namesOf_foldl_addDefinePair :
    ∀ (P : List (String × String)) (d : Defines) (m : String),
      m ∈ namesOf (P.foldl addDefinePair d) ↔ m ∈ namesOf d ∨ m ∈ P.map Prod.fst
  | [], d, m => by simp
  | p :: P, d, m => by
    rw [List.foldl_cons, namesOf_foldl_addDefinePair P]
    simp only [addDefinePair, mem_namesOf_addDefine, List.map_cons, List.mem_cons]
    tauto

theorem WFdf_foldl_addDefinePair :
    ∀ (P : List (String × String)) {d : Defines}, WFdf d → WFdf (P.foldl addDefinePair d)
  | [], _, h => h
  | p :: P, _, h => WFdf_foldl_addDefinePair P (WFdf_addDefine h p.1 p.2)

theorem WFdf_nil : WFdf [] := ⟨List.nodup_nil, by simp⟩

/-- Permuting the global pair sequence leaves the dictionary extensionally
unchanged. -/
theorem dfEquiv_of_perm {P1 P2 : List (String × String)} (h : P1.Perm P2) :
    DfEquiv (P1.foldl addDefinePair []) (P2.foldl addDefinePair []) := by
  constructor
  · intro n
    rw [namesOf_foldl_addDefinePair, namesOf_foldl_addDefinePair]
    simp [(h.map Prod.fst).mem_iff]
  · intro n v
    rw [valsOf_foldl_addDefinePair, valsOf_foldl_addDefinePair]
    simp [h.mem_iff]

theorem valsOf_nodup {d : Defines} (h : WFdf d) (n : String) : (valsOf d n).Nodup := by
  induction d with
  | nil => simp [valsOf]
  | cons e rest ih =>
    obtain ⟨k, vs⟩ := e
    by_cases hkn : k = n
    · simpa [valsOf, hkn] using (h.2 (k, vs) (List.mem_cons_self _ _)).2
    · simp only [valsOf, if_neg hkn]
      exact ih ⟨(List.nodup_cons.mp h.1).2, fun e he => h.2 e (List.mem_cons_of_mem _ he)⟩

theorem valsOf_entry {d : Defines} (hw : (namesOf d).Nodup) :
    ∀ e ∈ d, valsOf d e.1 = e.2 := by
  induction d with
  | nil => simp
  | cons f rest ih =>
    obtain ⟨k, vs⟩ := f
    intro e he
    rcases List.mem_cons.mp he with rfl | he
    · simp [valsOf]
    · have hk : k ∉ namesOf rest := (List.nodup_cons.mp hw).1
      have hne : ¬(k = e.1) := by
        intro hke
        exact hk (hke ▸ List.mem_map_of_mem Prod.fst he)
      simp only [valsOf, if_neg hne]
      exact ih (List.nodup_cons.mp hw).2 e he

theorem mem_valsOf_names {d : Defines} {n : String} (hw : (namesOf d).Nodup) :
    n ∈ namesOf d → ∃ e ∈ d, e.1 = n ∧ valsOf d n = e.2 := by
  intro hn
  rcases List.mem_map.mp hn with ⟨e, he, hfst⟩
  exact ⟨e, he, hfst, hfst ▸ valsOf_entry hw e he⟩

/-! ### Maximum, word-size collapse, and resolution lemmas -/

theorem flagLE_refl (a : Flag) : flagLE a a = true := (flagLE_total a a).elim id id

theorem maxFoldl_spec : ∀ (fs : List Flag) (a : Flag),
    (fs.foldl (fun m x => if flagLE m x then x else m) a = a ∨
      fs.foldl (fun m x => if flagLE m x then x else m) a ∈ fs) ∧
    flagLE a (fs.foldl (fun m x => if flagLE m x then x else m) a) = true ∧
    ∀ x ∈ fs, flagLE x (fs.foldl (fun m x => if flagLE m x then x else m) a) = true
  | [], a => ⟨Or.inl rfl, flagLE_refl a, by simp⟩
  | f :: fs, a => by
    rw [List.foldl_cons]
    by_cases h : flagLE a f = true
    · rw [if_pos h]
      obtain ⟨hmem, hle, hall⟩ := maxFoldl_spec fs f
      refine ⟨?_, ?_, ?_⟩
      · rcases hmem with hm | hm
        · exact Or.inr (by rw [hm]; exact List.mem_cons_self f fs)
        · exact Or.inr (List.mem_cons_of_mem f hm)
      · exact flagLE_trans a f _ h hle
      · intro x hx
        rcases List.mem_cons.mp hx with rfl | hx
        · exact hle
        · exact hall x hx
    · rw [if_neg h]
      obtain ⟨hmem, hle, hall⟩ := maxFoldl_spec fs a
      have hfa : flagLE f a = true := (flagLE_total f a).resolve_right h
      refine ⟨?_, hle, ?_⟩
      · rcases hmem with hm | hm
        · exact Or.inl hm
        · exact Or.inr (List.mem_cons_of_mem f hm)
      · intro x hx
        rcases List.mem_cons.mp hx with rfl | hx
        · exact flagLE_trans x a _ hfa hle
        · exact hall x hx

theorem maxFlag_spec {l : List Flag} {m : Flag} (h : maxFlag l = some m) :
    m ∈ l ∧ ∀ x ∈ l, flagLE x m = true := by
  match l, h with
  | f :: fs, h =>
    simp only [maxFlag, Option.some.injEq] at h
    obtain ⟨hmem, hle, hall⟩ := maxFoldl_spec fs f
    rw [h] at hmem hle hall
    constructor
    · rcases hmem with hm | hm
      · rw [hm]; exact List.mem_cons_self f fs
      · exact List.mem_cons_of_mem f hm
    · intro x hx
      rcases List.mem_cons.mp hx with rfl | hx
      · exact hle
      · exact hall x hx

theorem maxFlag_isSome : ∀ {l : List Flag}, l ≠ [] → ∃ m, maxFlag l = some m
  | [], h => absurd rfl h
  | _ :: _, _ => ⟨_, rfl⟩

theorem maxFlag_eq_of_mem_equiv {l1 l2 : List Flag} (hm : ∀ x, x ∈ l1 ↔ x ∈ l2) :
    maxFlag l1 = maxFlag l2 := by
  cases l1 with
  | nil =>
    cases l2 with
    | nil => rfl
    | cons b bs => exact absurd ((hm b).mpr (List.mem_cons_self b bs)) (by simp)
  | cons a as =>
    cases l2 with
    | nil => exact absurd ((hm a).mp (List.mem_cons_self a as)) (by simp)
    | cons b bs =>
      obtain ⟨m1, h1⟩ := maxFlag_isSome (by simp : a :: as ≠ [])
      obtain ⟨m2, h2⟩ := maxFlag_isSome (by simp : b :: bs ≠ [])
      rw [h1, h2]
      obtain ⟨hm1, hall1⟩ := maxFlag_spec h1
      obtain ⟨hm2, hall2⟩ := maxFlag_spec h2
      exact congrArg some (flagLE_antisymm m1 m2
        (hall2 m1 ((hm m1).mp hm1)) (hall1 m2 ((hm m2).mpr hm2)))

theorem length_eq_of_nodup_mem_equiv {l1 l2 : List Flag} (h1 : l1.Nodup) (h2 : l2.Nodup)
    (hm : ∀ x, x ∈ l1 ↔ x ∈ l2) : l1.length = l2.length :=
  ((List.perm_ext_iff_of_nodup h1 h2).mpr hm).length_eq

theorem collapseWordSize_nodup {fl : List Flag} (h : fl.Nodup) :
    (collapseWordSize fl).Nodup := by
  unfold collapseWordSize
  by_cases hl : 1 < (fl.filter isWordSizeFlag).length
  · rw [if_pos hl]
    rcases hmax : maxFlag (fl.filter isWordSizeFlag) with _ | m
    · exact h
    · exact nodup_setAdd (h.filter _) m
  · rwa [if_neg hl]

theorem collapseWordSize_mem_equiv {fl1 fl2 : List Flag} (h1 : fl1.Nodup) (h2 : fl2.Nodup)
    (hm : ∀ x, x ∈ fl1 ↔ x ∈ fl2) :
    ∀ x, x ∈ collapseWordSize fl1 ↔ x ∈ collapseWordSize fl2 := by
  have hwm : ∀ x, x ∈ fl1.filter isWordSizeFlag ↔ x ∈ fl2.filter isWordSizeFlag := by
    intro x
    simp [List.mem_filter, hm x]
  have hlen : (fl1.filter isWordSizeFlag).length = (fl2.filter isWordSizeFlag).length :=
    length_eq_of_nodup_mem_equiv (h1.filter _) (h2.filter _) hwm
  have hmax : maxFlag (fl1.filter isWordSizeFlag) = maxFlag (fl2.filter isWordSizeFlag) :=
    maxFlag_eq_of_mem_equiv hwm
  intro x
  unfold collapseWordSize
  by_cases hl : 1 < (fl1.filter isWordSizeFlag).length
  · rw [if_pos hl, if_pos (hlen ▸ hl), ← hmax]
    rcases hmx : maxFlag (fl1.filter isWordSizeFlag) with _ | m
    · exact hm x
    · simp only [mem_setAdd, List.mem_filter, hm x]
  · rw [if_neg hl, if_neg (hlen ▸ hl)]
    exact hm x

theorem resolveDefines_fst : ∀ (d : Defines) (fl : List Flag),
    (resolveDefines d fl).1 = (dfFlags d).foldl setAdd fl
  | [], _ => rfl
  | (n, vs) :: rest, fl => by
    have hstep : (resolveDefines ((n, vs) :: rest) fl).1 =
        (resolveDefines rest (setAdd fl (Flag.str (defineFlagStr n (resolveValue vs))))).1 := by
      by_cases h : 1 < vs.length <;> simp [resolveDefines, h]
    rw [hstep, resolveDefines_fst rest]
    simp [dfFlags]

theorem resolveValue_perm {vs1 vs2 : List String} (h : vs1.Perm vs2) :
    resolveValue vs1 = resolveValue vs2 := by
  have hlen := h.length_eq
  unfold resolveValue
  rw [← hlen]
  by_cases hl : 1 < vs1.length
  · rw [if_pos hl, if_pos hl,
      isort_eq_of_perm strLE strLE_total (fun _ _ _ => strLE_trans)
        (fun _ _ => strLE_antisymm) h]
  · rw [if_neg hl, if_neg hl]
    match vs1, vs2, h, hlen, hl with
    | [], vs2, h, _, _ => rw [h.nil_eq]
    | [a], vs2, h, hlen, _ =>
      match vs2, hlen with
      | [b], _ =>
        have : a = b := by simpa using h.mem_iff.mp (List.mem_singleton_self a)
        rw [this]
    | a :: b :: t, _, _, _, hl => exact absurd (by simp) hl

theorem mem_dfFlags_iff {d : Defines} (hw : WFdf d) {x : Flag} :
    x ∈ dfFlags d ↔
      ∃ n, n ∈ namesOf d ∧ x = Flag.str (defineFlagStr n (resolveValue (valsOf d n))) := by
  constructor
  · intro hx
    rcases List.mem_map.mp hx with ⟨e, he, hex⟩
    exact ⟨e.1, List.mem_map_of_mem Prod.fst he,
      by rw [valsOf_entry hw.1 e he]; exact hex.symm⟩
  · rintro ⟨n, hn, rfl⟩
    rcases mem_valsOf_names hw.1 hn with ⟨e, he, hfst, hvals⟩
    refine List.mem_map.mpr ⟨e, he, ?_⟩
    rw [hfst, hvals]

theorem dfFlags_mem_equiv {d1 d2 : Defines} (h1 : WFdf d1) (h2 : WFdf d2)
    (he : DfEquiv d1 d2) : ∀ x, x ∈ dfFlags d1 ↔ x ∈ dfFlags d2 := by
  intro x
  rw [mem_dfFlags_iff h1, mem_dfFlags_iff h2]
  constructor
  · rintro ⟨n, hn, rfl⟩
    refine ⟨n, (he.1 n).mp hn, ?_⟩
    have hperm : (valsOf d1 n).Perm (valsOf d2 n) :=
      (List.perm_ext_iff_of_nodup (valsOf_nodup h1 n) (valsOf_nodup h2 n)).mpr
        (fun v => he.2 n v)
    rw [resolveValue_perm hperm]
  · rintro ⟨n, hn, rfl⟩
    refine ⟨n, (he.1 n).mpr hn, ?_⟩
    have hperm : (valsOf d1 n).Perm (valsOf d2 n) :=
      (List.perm_ext_iff_of_nodup (valsOf_nodup h1 n) (valsOf_nodup h2 n)).mpr
        (fun v => he.2 n v)
    rw [resolveValue_perm hperm]

/-! ### Order independence of the reducer -/

theorem flatten_perm {l1 l2 : List (List α)} (h : l1.Perm l2) :
    l1.flatten.Perm l2.flatten := by
  induction h with
  | nil => exact List.Perm.refl _
  | cons a _ ih => simpa using ih.append_left a
  | swap a b l =>
    simp only [List.flatten_cons]
    rw [← List.append_assoc, ← List.append_assoc]
    exact List.perm_append_comm.append_right _
  | trans _ _ ih1 ih2 => exact ih1.trans ih2

theorem logFlags_perm {l1 l2 : List String} (h : l1.Perm l2) :
    (logFlags l1).Perm (logFlags l2) :=
  flatten_perm ((h.filter _).map _)

theorem logPairs_perm {l1 l2 : List String} (h : l1.Perm l2) :
    (logPairs l1).Perm (logPairs l2) :=
  flatten_perm ((h.filter _).map _)

/-- The final flag list of a log, before sorting: the collapsed whitelisted
flags plus the resolved macro definitions. -/
theorem parse_flagsW_flags (log : List String) :
    (parse_flagsW log).2.2.1 =
      isort flagLE ((dfFlags ((logPairs log).foldl addDefinePair [])).foldl setAdd
        (collapseWordSize ((logFlags log).foldl setAdd []))) := by
  simp only [parse_flagsW]
  rw [foldl_processLine log initState, resolveDefines_fst]
  simp [initState]

theorem parse_flagsW_counts (log : List String) :
    (parse_flagsW log).1 = log.countP (fun l => !lineSkipped l) ∧
      (parse_flagsW log).2.1 = log.countP (fun l => lineSkipped l) := by
  simp only [parse_flagsW]
  rw [foldl_processLine log initState]
  simp [initState]

theorem parse_flags_perm {l1 l2 : List String} (h : l1.Perm l2) :
    parse_flags l1 = parse_flags l2 := by
  have hc1 := parse_flagsW_counts l1
  have hc2 := parse_flagsW_counts l2
  have hf1 := parse_flagsW_flags l1
  have hf2 := parse_flagsW_flags l2
  have base1 : ((logFlags l1).foldl setAdd ([] : List Flag)).Nodup :=
    nodup_foldl_setAdd _ List.nodup_nil
  have base2 : ((logFlags l2).foldl setAdd ([] : List Flag)).Nodup :=
    nodup_foldl_setAdd _ List.nodup_nil
  have hbm : ∀ x, x ∈ (logFlags l1).foldl setAdd ([] : List Flag) ↔
      x ∈ (logFlags l2).foldl setAdd ([] : List Flag) := by
    intro x
    rw [mem_foldl_setAdd, mem_foldl_setAdd]
    simp [(logFlags_perm h).mem_iff]
  have hcol : ∀ x, x ∈ collapseWordSize ((logFlags l1).foldl setAdd []) ↔
      x ∈ collapseWordSize ((logFlags l2).foldl setAdd []) :=
    collapseWordSize_mem_equiv base1 base2 hbm
  have hcoln1 : (collapseWordSize ((logFlags l1).foldl setAdd [])).Nodup :=
    collapseWordSize_nodup base1
  have hcoln2 : (collapseWordSize ((logFlags l2).foldl setAdd [])).Nodup :=
    collapseWordSize_nodup base2
  have hwf1 : WFdf ((logPairs l1).foldl addDefinePair []) :=
    WFdf_foldl_addDefinePair _ WFdf_nil
  have hwf2 : WFdf ((logPairs l2).foldl addDefinePair []) :=
    WFdf_foldl_addDefinePair _ WFdf_nil
  have hdf : ∀ x, x ∈ dfFlags ((logPairs l1).foldl addDefinePair []) ↔
      x ∈ dfFlags ((logPairs l2).foldl addDefinePair []) :=
    dfFlags_mem_equiv hwf1 hwf2 (dfEquiv_of_perm (logPairs_perm h))
  have hfinm : ∀ x,
      x ∈ (dfFlags ((logPairs l1).foldl addDefinePair [])).foldl setAdd
        (collapseWordSize ((logFlags l1).foldl setAdd [])) ↔
      x ∈ (dfFlags ((logPairs l2).foldl addDefinePair [])).foldl setAdd
        (collapseWordSize ((logFlags l2).foldl setAdd [])) := by
    intro x
    rw [mem_foldl_setAdd, mem_foldl_setAdd]
    rw [hcol x, hdf x]
  have hfinn1 := nodup_foldl_setAdd (dfFlags ((logPairs l1).foldl addDefinePair [])) hcoln1
  have hfinn2 := nodup_foldl_setAdd (dfFlags ((logPairs l2).foldl addDefinePair [])) hcoln2
  have hfperm := (List.perm_ext_iff_of_nodup hfinn1 hfinn2).mpr hfinm
  have hsorted :=
    isort_eq_of_perm flagLE flagLE_total flagLE_trans flagLE_antisymm hfperm
  unfold parse_flags
  rw [hc1.1, hc1.2, hc2.1, hc2.2, hf1, hf2, hsorted,
    h.countP_eq (fun l => !lineSkipped l), h.countP_eq (fun l => lineSkipped l)]

/-! ### Characterizing the two regexes -/

theorem isPrefixOf_iff : ∀ (p l : List Char), p.isPrefixOf l = true ↔ ∃ t, l = p ++ t
  | [], l => by simp [List.isPrefixOf]
  | a :: p, [] => by simp [List.isPrefixOf]
  | a :: p, b :: l => by
    simp only [List.isPrefixOf, Bool.and_eq_true, beq_iff_eq, isPrefixOf_iff p l,
      List.cons_append, List.cons.injEq]
    constructor
    · rintro ⟨rfl, t, rfl⟩
      exact ⟨t, rfl, rfl⟩
    · rintro ⟨t, rfl, rfl⟩
      exact ⟨rfl, t, rfl⟩

theorem oTmpAt_iff (s : List Char) :
    oTmpAt s = true ↔ ∃ c1 c2 t, s = '-' :: 'o' :: ' ' :: c1 :: c2 :: 't' :: 'm' :: 'p' :: t ∧
      isOTmpClass c1 = true := by
  unfold oTmpAt
  split
  · rename_i c1 c2 t
    simp
  · rename_i hno
    simp only [Bool.false_eq_true, false_iff]
    rintro ⟨c1, c2, t, rfl, -⟩
    exact hno c1 c2 t rfl

theorem tempOutputAt_iff (s : List Char) :
    tempOutputAt s = true ↔
      ((∃ t, s = "-x assembler".data ++ t)
        ∨ (∃ c1 c2 t, s = '-' :: 'o' :: ' ' :: c1 :: c2 :: 't' :: 'm' :: 'p' :: t ∧
            isOTmpClass c1 = true)
        ∨ (∃ t, s = "/dev/null".data ++ t)) := by
  simp only [tempOutputAt, Bool.or_eq_true, isPrefixOf_iff, oTmpAt_iff, or_assoc]

theorem tempOutputSearch_iff_at : ∀ l : List Char,
    tempOutputSearch l = true ↔ ∃ p s, l = p ++ s ∧ tempOutputAt s = true
  | [] => by
    simp only [tempOutputSearch, Bool.false_eq_true, false_iff]
    rintro ⟨p, s, hps, hm⟩
    rcases List.append_eq_nil.mp hps.symm with ⟨rfl, rfl⟩
    simp [tempOutputAt, List.isPrefixOf, oTmpAt] at hm
  | c :: rest => by
    simp only [tempOutputSearch, Bool.or_eq_true, tempOutputSearch_iff_at rest]
    constructor
    · rintro (h | ⟨p, s, rfl, hm⟩)
      · exact ⟨[], c :: rest, rfl, h⟩
      · exact ⟨c :: p, s, rfl, hm⟩
    · rintro ⟨p, s, hps, hm⟩
      cases p with
      | nil => exact Or.inl (by simpa using hps ▸ hm)
      | cons c2 p2 =>
        rw [List.cons_append, List.cons.injEq] at hps
        exact Or.inr ⟨p2, s, hps.2, hm⟩

/-- The admission filter, characterized as substring containment. -/
theorem tempOutputSearch_iff (l : List Char) :
    tempOutputSearch l = true ↔ TempOutputSpec l := by
  rw [tempOutputSearch_iff_at]
  unfold TempOutputSpec
  constructor
  · rintro ⟨p, s, rfl, hm⟩
    rcases (tempOutputAt_iff s).mp hm with ⟨t, rfl⟩ | ⟨c1, c2, t, rfl, hc⟩ | ⟨t, rfl⟩
    · exact Or.inl ⟨p, t, by simp⟩
    · refine Or.inr (Or.inl ⟨p, c1, c2, t, rfl, ?_⟩)
      simpa [isOTmpClass, or_assoc] using hc
    · exact Or.inr (Or.inr ⟨p, t, by simp⟩)
  · rintro (⟨p, t, rfl⟩ | ⟨p, c1, c2, t, rfl, hc⟩ | ⟨p, t, rfl⟩)
    · exact ⟨p, _, by simp, (tempOutputAt_iff _).mpr (Or.inl ⟨t, rfl⟩)⟩
    · exact ⟨p, _, rfl, (tempOutputAt_iff _).mpr
        (Or.inr (Or.inl ⟨c1, c2, t, rfl, by simpa [isOTmpClass, or_assoc] using hc⟩))⟩
    · exact ⟨p, _, by simp, (tempOutputAt_iff _).mpr (Or.inr (Or.inr ⟨t, rfl⟩))⟩

theorem wlIncludeDefine_iff (w : List Char) :
    wlIncludeDefine w = true ↔
      ∃ c rest, w = '-' :: c :: rest ∧ (c = 'i' ∨ c = 'I' ∨ c = 'D' ∨ c = 'F') := by
  unfold wlIncludeDefine
  split
  · rename_i c rest
    simp [or_assoc]
  · rename_i hno
    simp only [Bool.false_eq_true, false_iff]
    rintro ⟨c, rest, rfl, -⟩
    exact hno c rest rfl

theorem wlWarning_iff (w : List Char) :
    wlWarning w = true ↔ ∃ rest, w = '-' :: 'W' :: rest ∧ ',' ∉ rest := by
  unfold wlWarning
  split
  · rename_i rest
    simp only [List.all_eq_true, bne_iff_ne, List.cons.injEq, true_and]
    constructor
    · intro h
      exact ⟨rest, rfl, fun hc => (h ',' hc) rfl⟩
    · rintro ⟨rest2, heq, hc⟩
      obtain rfl : rest = rest2 := by simpa using heq
      exact fun c hcm hceq => hc (hceq ▸ hcm)
  · rename_i hno
    simp only [Bool.false_eq_true, false_iff]
    rintro ⟨rest, rfl, -⟩
    exact hno rest rfl

theorem wlStd_iff (w : List Char) :
    wlStd w = true ↔ ∃ rest, w = '-' :: 's' :: 't' :: 'd' :: '=' :: rest ∧ rest ≠ [] ∧
      ∀ c ∈ rest, c.isLower = true ∨ c.isDigit = true ∨ c = '+' := by
  unfold wlStd
  split
  · rename_i rest
    cases rest with
    | nil => simp
    | cons c cs =>
      simp only [List.isEmpty_cons, Bool.not_false, Bool.true_and, List.all_eq_true,
        List.cons.injEq, true_and]
      constructor
      · intro h
        exact ⟨c :: cs, rfl, by simp, fun x hx => by simpa [isStdChar, or_assoc] using h x hx⟩
      · rintro ⟨rest2, heq, -, hall⟩
        obtain rfl : c :: cs = rest2 := by simpa using heq
        intro x hx
        simpa [isStdChar, or_assoc] using hall x hx
  · rename_i hno
    simp only [Bool.false_eq_true, false_iff]
    rintro ⟨rest, rfl, -⟩
    exact hno rest rfl

theorem wlWordSize_iff (w : List Char) :
    wlWordSize w = true ↔ ∃ rest, w = '-' :: 'm' :: rest ∧ rest ≠ [] ∧
      ∀ c ∈ rest, c.isDigit = true := by
  unfold wlWordSize
  split
  · rename_i rest
    cases rest with
    | nil => simp
    | cons c cs =>
      simp only [List.isEmpty_cons, Bool.not_false, Bool.true_and, List.all_eq_true,
        List.cons.injEq, true_and]
      constructor
      · intro h
        exact ⟨c :: cs, rfl, by simp, h⟩
      · rintro ⟨rest2, heq, -, hall⟩
        obtain rfl : c :: cs = rest2 := by simpa using heq
        exact hall
  · rename_i hno
    simp only [Bool.false_eq_true, false_iff]
    rintro ⟨rest, rfl, -⟩
    exact hno rest rfl

/-- The whitelist regex, characterized as the disjunction of the five token
shapes the spec describes. -/
theorem whitelistMatch_iff (w : List Char) :
    whitelistMatch w = true ↔ whitelistSpec w := by
  unfold whitelistMatch whitelistSpec wlStdlib
  simp only [Bool.or_eq_true, wlIncludeDefine_iff, wlWarning_iff, wlStd_iff,
    wlWordSize_iff, decide_eq_true_eq, or_assoc]

theorem whitelistSpec_head {w : List Char} (h : whitelistSpec w) :
    ∃ rest, w = '-' :: rest := by
  rcases h with ⟨c, rest, rfl, -⟩ | ⟨rest, rfl, -⟩ | ⟨rest, rfl, -⟩ | h | h | h | h |
    ⟨rest, rfl, -⟩
  · exact ⟨c :: rest, rfl⟩
  · exact ⟨'W' :: rest, rfl⟩
  · exact ⟨'s' :: 't' :: 'd' :: '=' :: rest, rfl⟩
  · exact ⟨"stdlib".data, by rw [h]⟩
  · exact ⟨"stdinc".data, by rw [h]⟩
  · exact ⟨"nostdlib".data, by rw [h]⟩
  · exact ⟨"nostdinc".data, by rw [h]⟩
  · exact ⟨'m' :: rest, rfl⟩

/-! ### Flag-shape invariants of the loop -/

theorem mem_lineFlags_inv : ∀ (ws : List (List Char)) {f : Flag},
    f ∈ lineFlags ws → PFlagInv f
  | [], f, h => absurd h (List.not_mem_nil f)
  | w :: rest, f, h => by
    by_cases hw : (headIsDash w && whitelistMatch w) = true
    · have hwl : whitelistMatch w = true := by
        rw [Bool.and_eq_true] at hw
        exact hw.2
      rcases hd : defineMatch w with _ | nv
      · rcases hr : rest.head? with _ | nxt
        · simp only [lineFlags, hw, if_true, hd, hr, List.mem_singleton] at h
          subst h
          exact ⟨hwl, hd⟩
        · by_cases hp : w ∈ filename_flags ∧ headIsDash nxt = false
          · simp only [lineFlags, hw, if_true, hd, hr, if_pos hp, List.mem_cons] at h
            rcases h with rfl | h
            · exact ⟨hwl, hp.1⟩
            · exact mem_lineFlags_inv rest h
          · simp only [lineFlags, hw, if_true, hd, hr, if_neg hp, List.mem_cons] at h
            rcases h with rfl | h
            · exact ⟨hwl, hd⟩
            · exact mem_lineFlags_inv rest h
      · simp only [lineFlags, hw, if_true, hd] at h
        exact mem_lineFlags_inv rest h
    · rw [Bool.not_eq_true] at hw
      simp only [lineFlags, hw, Bool.false_eq_true, if_false] at h
      exact mem_lineFlags_inv rest h

theorem mem_logFlags_inv {log : List String} {f : Flag} (h : f ∈ logFlags log) :
    PFlagInv f := by
  unfold logFlags at h
  rcases List.mem_flatten.mp h with ⟨L, hL, hf⟩
  rcases List.mem_map.mp hL with ⟨line, -, rfl⟩
  exact mem_lineFlags_inv _ hf

theorem collapseWordSize_subset {fl : List Flag} {f : Flag}
    (h : f ∈ collapseWordSize fl) : f ∈ fl := by
  unfold collapseWordSize at h
  by_cases hl : 1 < (fl.filter isWordSizeFlag).length
  · rw [if_pos hl] at h
    rcases hmx : maxFlag (fl.filter isWordSizeFlag) with _ | m
    · rwa [hmx] at h
    · rw [hmx] at h
      rcases mem_setAdd.mp h with hf | rfl
      · exact (List.mem_filter.mp hf).1
      · exact (List.mem_filter.mp (maxFlag_spec hmx).1).1
  · rwa [if_neg hl] at h

theorem whitelist_dasho_false : whitelistMatch "-o".data = false := by decide

theorem PFlagInv_FlagOK {f : Flag} (h : PFlagInv f) : FlagOK f := by
  cases f with
  | str s =>
    obtain ⟨rest, hr⟩ := whitelistSpec_head ((whitelistMatch_iff _).mp h.1)
    refine ⟨by rw [hr]; rfl, ?_⟩
    rintro rfl
    exact Bool.false_ne_true (whitelist_dasho_false ▸ h.1)
  | pair o a =>
    rintro rfl
    exact Bool.false_ne_true (whitelist_dasho_false ▸ h.1)

/-! ### The `-D<name>=<value>` string shape -/

theorem takeWhile_word (tail : List Char) : ∀ (nd : List Char),
    (∀ c ∈ nd, isWordChar c = true) →
    (nd ++ '=' :: tail).takeWhile isWordChar = nd ∧
      (nd ++ '=' :: tail).dropWhile isWordChar = '=' :: tail
  | [], _ => by simp [List.takeWhile, List.dropWhile, isWordChar]
  | c :: nd, h => by
    have hc : isWordChar c = true := h c (List.mem_cons_self c nd)
    have ih := takeWhile_word tail nd (fun x hx => h x (List.mem_cons_of_mem c hx))
    simp [List.takeWhile_cons, List.dropWhile_cons, hc, ih.1, ih.2]

theorem data_defineFlagStr (n v : String) :
    (defineFlagStr n v).data = '-' :: 'D' :: (n.data ++ '=' :: v.data) := by
  simp [defineFlagStr, String.data_append]

theorem defineMatch_defineFlagStr {n : String} (v : String) (hne : n.data ≠ [])
    (hw : ∀ c ∈ n.data, isWordChar c = true) :
    defineMatch (defineFlagStr n v).data = some (n.data, v.data) := by
  rw [data_defineFlagStr]
  obtain ⟨ht, hd⟩ := takeWhile_word v.data n.data hw
  unfold defineMatch
  rcases hnd : n.data with _ | ⟨c, nd⟩
  · exact absurd hnd hne
  · rw [hnd] at ht hd
    simp only [ht, hd]

theorem eqsep_inj : ∀ (nd md t1 t2 : List Char), (∀ c ∈ nd, c ≠ '=') →
    (∀ c ∈ md, c ≠ '=') → nd ++ '=' :: t1 = md ++ '=' :: t2 → nd = md ∧ t1 = t2
  | [], [], t1, t2, _, _, h => ⟨rfl, by simpa using h⟩
  | [], c :: md, t1, t2, _, hm, h => by
    rw [List.nil_append, List.cons_append, List.cons.injEq] at h
    exact absurd h.1.symm (hm c (List.mem_cons_self c md))
  | c :: nd, [], t1, t2, hn, _, h => by
    rw [List.nil_append, List.cons_append, List.cons.injEq] at h
    exact absurd h.1 (hn c (List.mem_cons_self c nd))
  | c :: nd, c2 :: md, t1, t2, hn, hm, h => by
    rw [List.cons_append, List.cons_append, List.cons.injEq] at h
    obtain ⟨rfl, ht⟩ := h
    obtain ⟨hnd, ht12⟩ := eqsep_inj nd md t1 t2
      (fun x hx => hn x (List.mem_cons_of_mem c hx))
      (fun x hx => hm x (List.mem_cons_of_mem c hx)) ht
    exact ⟨by rw [hnd], ht12⟩

theorem isWordChar_ne_eq {c : Char} (h : isWordChar c = true) : c ≠ '=' := by
  rintro rfl
  simp [isWordChar, Char.isAlpha, Char.isUpper, Char.isLower, Char.isDigit] at h

/-! ### Names recorded in the dictionary are word-character names -/

theorem defineMatch_name : ∀ {w nm v : List Char}, defineMatch w = some (nm, v) →
    nm ≠ [] ∧ ∀ c ∈ nm, isWordChar c = true := by
  intro w nm v h
  unfold defineMatch at h
  split at h
  · rename_i rest
    split at h
    · rename_i c nd heq hd
      simp only [Option.some.injEq, Prod.mk.injEq] at h
      obtain ⟨rfl, rfl⟩ := h
      refine ⟨by rw [heq]; simp, ?_⟩
      intro x hx
      exact List.mem_takeWhile_imp hx
    · exact absurd h (by simp)
  · exact absurd h (by simp)

theorem mem_linePairs_name : ∀ (ws : List (List Char)) {p : String × String},
    p ∈ linePairs ws → p.1.data ≠ [] ∧ ∀ c ∈ p.1.data, isWordChar c = true
  | [], p, h => absurd h (List.not_mem_nil p)
  | w :: rest, p, h => by
    rw [linePairs] at h
    by_cases hw : (headIsDash w && whitelistMatch w) = true
    · rw [if_pos hw] at h
      rcases hd : defineMatch w with _ | nv
      · rw [hd] at h
        exact mem_linePairs_name rest h
      · rw [hd] at h
        rcases List.mem_cons.mp h with rfl | h
        · exact defineMatch_name (show defineMatch w = some (nv.1, nv.2) from by rw [hd])
        · exact mem_linePairs_name rest h
    · rw [if_neg hw] at h
      exact mem_linePairs_name rest h

theorem mem_logPairs_name {log : List String} {p : String × String}
    (h : p ∈ logPairs log) : p.1.data ≠ [] ∧ ∀ c ∈ p.1.data, isWordChar c = true := by
  unfold logPairs at h
  rcases List.mem_flatten.mp h with ⟨L, hL, hp⟩
  rcases List.mem_map.mp hL with ⟨line, -, rfl⟩
  exact mem_linePairs_name _ hp

theorem valsOf_ne_nil_mem_names {d : Defines} {n : String} (h : valsOf d n ≠ []) :
    n ∈ namesOf d := by
  induction d with
  | nil => exact absurd rfl h
  | cons e rest ih =>
    obtain ⟨k, vs⟩ := e
    by_cases hkn : k = n
    · simp [namesOf, hkn]
    · rw [valsOf, if_neg hkn] at h
      exact List.mem_cons_of_mem _ (ih h)

theorem names_wordchar {log : List String} {n : String}
    (h : n ∈ namesOf ((logPairs log).foldl addDefinePair [])) :
    n.data ≠ [] ∧ ∀ c ∈ n.data, isWordChar c = true := by
  rcases (namesOf_foldl_addDefinePair (logPairs log) [] n).mp h with hnil | hmem
  · exact absurd hnil (by simp [namesOf])
  · rcases List.mem_map.mp hmem with ⟨p, hp, rfl⟩
    exact mem_logPairs_name hp

/-! ### Resolution value and warning lemmas -/

theorem charListLE_refl : ∀ l : List Char, charListLE l l = true
  | [] => rfl
  | c :: l => by simp [charListLE, charListLE_refl l]

theorem strLE_refl (s : String) : strLE s s = true := charListLE_refl s.data

/-- The resolved value of a macro is one of its recorded values and is
lexicographically least among them. -/
theorem resolveValue_spec {vs : List String} (h : vs ≠ []) :
    resolveValue vs ∈ vs ∧ ∀ v ∈ vs, strLE (resolveValue vs) v = true := by
  unfold resolveValue
  by_cases hl : 1 < vs.length
  · rw [if_pos hl]
    have hperm := isort_perm strLE vs
    have hpw := isort_pairwise strLE strLE_total (fun _ _ _ => strLE_trans) vs
    rcases hs : isort strLE vs with _ | ⟨hd, tl⟩
    · rw [hs] at hperm
      exact absurd hperm.symm.eq_nil h
    · rw [hs] at hperm hpw
      simp only [List.headD_cons]
      refine ⟨hperm.mem_iff.mp (List.mem_cons_self hd tl), ?_⟩
      intro v hv
      rcases List.mem_cons.mp (hperm.mem_iff.mpr hv) with rfl | hvt
      · exact strLE_refl v
      · exact (List.pairwise_cons.mp hpw).1 v hvt
  · rw [if_neg hl]
    match vs, h, hl with
    | [v], _, _ => exact ⟨List.mem_singleton_self v, by
        intro x hx
        rcases List.mem_singleton.mp hx with rfl
        exact strLE_refl x⟩
    | a :: b :: t, _, hl => exact absurd (by simp) hl

theorem mem_resolveDefines_warnings : ∀ (d : Defines) (fl : List Flag) {n : String}
    {vs : List String}, (n, vs) ∈ d → 1 < vs.length →
      (vs.length, n) ∈ (resolveDefines d fl).2
  | [], _, n, vs, h, _ => absurd h (List.not_mem_nil _)
  | (k, ws) :: rest, fl, n, vs, h, hl => by
    rcases List.mem_cons.mp h with heq | hmem
    · obtain ⟨rfl, rfl⟩ : n = k ∧ vs = ws := by
        rw [Prod.mk.injEq] at heq
        exact heq
      simp [resolveDefines, hl]
    · have ih := mem_resolveDefines_warnings rest
        (setAdd fl (Flag.str (defineFlagStr k (resolveValue ws)))) hmem hl
      by_cases hk : 1 < ws.length <;> simp [resolveDefines, hk, ih]

theorem countP_not_add_countP (p : α → Bool) :
    ∀ l : List α, l.countP (fun a => !p a) + l.countP p = l.length
  | [] => rfl
  | a :: l => by
    by_cases h : p a = true <;>
      simp [List.countP_cons, h, ← countP_not_add_countP p l] <;> omega

theorem str_data_inj {a b : String} (h : a.data = b.data) : a = b := by
  cases a
  cases b
  exact congrArg String.mk h

/-- Every flag in the final output is either an accumulated whitelisted token
or a resolved macro definition of a recorded name. -/
theorem mem_parse_flags_cases {log : List String} {f : Flag}
    (h : f ∈ (parse_flags log).2.2) :
    PFlagInv f ∨ ∃ n, n ∈ namesOf ((logPairs log).foldl addDefinePair []) ∧
      f = Flag.str (defineFlagStr n
        (resolveValue (valsOf ((logPairs log).foldl addDefinePair []) n))) := by
  have hout : (parse_flags log).2.2 = (parse_flagsW log).2.2.1 := rfl
  rw [hout, parse_flagsW_flags] at h
  have h2 := (isort_perm flagLE _).mem_iff.mp h
  rcases (mem_foldl_setAdd _ _ f).mp h2 with hb | hdf
  · have hbase := collapseWordSize_subset hb
    rcases (mem_foldl_setAdd _ _ f).mp hbase with hnil | hlf
    · exact absurd hnil (List.not_mem_nil f)
    · exact Or.inl (mem_logFlags_inv hlf)
  · exact Or.inr ((mem_dfFlags_iff (WFdf_foldl_addDefinePair _ WFdf_nil)).mp hdf)

/-! ### The claims -/

/-- C1: the result of `parse_flags` is a pure function of the multiset of the
log's lines: permuting the lines yields exactly the same
`(line_count, skip_count, sorted flags)` triple, and running `parse_flags`
twice on the same log yields identical results. -/
theorem claim_C1_order_independence {l1 l2 : List String} (h : l1.Perm l2) :
    parse_flags l1 = parse_flags l2 ∧ parse_flags l1 = parse_flags l1 :=
  ⟨parse_flags_perm h, rfl⟩

/-- Witness for C1 at a concrete shuffled two-line log. -/
theorem claim_C1_witness :
    parse_flags ["cc -DX=1 -I/inc -c a.c", "cc -m64 -Wall -c b.c"] =
      parse_flags ["cc -m64 -Wall -c b.c", "cc -DX=1 -I/inc -c a.c"] :=
  (claim_C1_order_independence (List.Perm.swap _ _ _)).1

/-- C2 counterexample: with `-DFOO=1` and `-DFOO=2` recorded, `parse_flags`
emits `-DFOO=1` (the lexicographically smallest value), not `-DFOO=2` as the
claim states. -/
theorem claim_C2_counterexample :
    (parse_flags ["cc -DFOO=1 -c a.c", "cc -DFOO=2 -c b.c"]).2.2 =
      [Flag.str "-DFOO=1"] ∧
    Flag.str "-DFOO=2" ∉ (parse_flags ["cc -DFOO=1 -c a.c", "cc -DFOO=2 -c b.c"]).2.2 := by
  decide

/-- C2 (amended): for every macro name recorded via `-D<NAME>=<VALUE>` tokens,
`parse_flags` emits exactly one definition for that name, whose value is the
lexicographically smallest of the recorded values; a warning identifying the
ambiguity is recorded when there is more than one distinct value; a name with
exactly one recorded value is emitted unchanged (the sole value is trivially
the smallest). -/
theorem claim_C2_macro_conflict_smallest (log : List String) (n : String)
    (vs : List String) (rv : String)
    (hn1 : n.data ≠ []) (hn2 : ∀ c ∈ n.data, isWordChar c = true)
    (hvs : valsOf ((logPairs log).foldl addDefinePair []) n = vs) (hne : vs ≠ [])
    (hrv : resolveValue vs = rv) :
    rv ∈ vs ∧ (∀ v ∈ vs, strLE rv v = true) ∧
    Flag.str (defineFlagStr n rv) ∈ (parse_flags log).2.2 ∧
    (∀ f ∈ (parse_flags log).2.2, isDefFor n f = true →
      f = Flag.str (defineFlagStr n rv)) ∧
    (1 < vs.length → (vs.length, n) ∈ (parse_flagsW log).2.2.2) := by
  subst hvs hrv
  have hwf : WFdf ((logPairs log).foldl addDefinePair []) :=
    WFdf_foldl_addDefinePair _ WFdf_nil
  have hmn : n ∈ namesOf ((logPairs log).foldl addDefinePair []) :=
    valsOf_ne_nil_mem_names hne
  obtain ⟨hmem, hmin⟩ := resolveValue_spec hne
  refine ⟨hmem, hmin, ?_, ?_, ?_⟩
  · have hout : (parse_flags log).2.2 = (parse_flagsW log).2.2.1 := rfl
    rw [hout, parse_flagsW_flags]
    refine (isort_perm flagLE _).mem_iff.mpr ?_
    exact (mem_foldl_setAdd _ _ _).mpr
      (Or.inr ((mem_dfFlags_iff hwf).mpr ⟨n, hmn, rfl⟩))
  · intro f hf hdef
    rcases mem_parse_flags_cases hf with hinv | ⟨m, hm, rfl⟩
    · cases f with
      | pair o a => simp [isDefFor] at hdef
      | str s =>
        simp only [isDefFor] at hdef
        rcases (isPrefixOf_iff _ _).mp hdef with ⟨y, hy⟩
        have hshape : s.data = (defineFlagStr n (String.mk y)).data := by
          rw [data_defineFlagStr, hy]
          simp [String.data_append]
        have hdm : defineMatch s.data = some (n.data, y) := by
          rw [hshape, defineMatch_defineFlagStr (String.mk y) hn1 hn2]
        exact absurd hinv.2 (by rw [hdm]; simp)
    · have hmw := names_wordchar hm
      simp only [isDefFor] at hdef
      rcases (isPrefixOf_iff _ _).mp hdef with ⟨y, hy⟩
      rw [data_defineFlagStr] at hy
      have hpre : ("-D" ++ n ++ "=").data ++ y = '-' :: 'D' :: (n.data ++ '=' :: y) := by
        simp [String.data_append]
      rw [hpre] at hy
      simp only [List.cons.injEq, true_and] at hy
      obtain ⟨hmn2, -⟩ := eqsep_inj m.data n.data _ _
        (fun c hc => isWordChar_ne_eq (hmw.2 c hc))
        (fun c hc => isWordChar_ne_eq (hn2 c hc)) hy
      obtain rfl : m = n := str_data_inj hmn2
      rfl
  · intro hl
    obtain ⟨e, he, hfst, hvals⟩ := mem_valsOf_names hwf.1 hmn
    have he2 : (n, valsOf ((logPairs log).foldl addDefinePair []) n) ∈
        (logPairs log).foldl addDefinePair [] := by
      have heq : e = (n, valsOf ((logPairs log).foldl addDefinePair []) n) := by
        rw [Prod.ext_iff]
        exact ⟨hfst, hvals.symm⟩
      rwa [heq] at he
    rw [show (parse_flagsW log).2.2.2 = (resolveDefines ((logPairs log).foldl
        addDefinePair []) (collapseWordSize ((logFlags log).foldl setAdd []))).2 from by
      simp only [parse_flagsW]
      rw [foldl_processLine log initState]
      simp [initState]]
    exact mem_resolveDefines_warnings _ _ he2 hl

/-- Witness for C2 at a concrete two-line log defining FOO twice. -/
theorem claim_C2_witness :
    ("1" : String) ∈ ["1", "2"] ∧ (∀ v ∈ ["1", "2"], strLE "1" v = true) ∧
    Flag.str (defineFlagStr "FOO" "1") ∈
      (parse_flags ["cc -DFOO=1 -c a.c", "cc -DFOO=2 -c b.c"]).2.2 ∧
    (∀ f ∈ (parse_flags ["cc -DFOO=1 -c a.c", "cc -DFOO=2 -c b.c"]).2.2,
      isDefFor "FOO" f = true → f = Flag.str (defineFlagStr "FOO" "1")) ∧
    (1 < (["1", "2"] : List String).length →
      ((["1", "2"] : List String).length, "FOO") ∈
        (parse_flagsW ["cc -DFOO=1 -c a.c", "cc -DFOO=2 -c b.c"]).2.2.2) :=
  claim_C2_macro_conflict_smallest ["cc -DFOO=1 -c a.c", "cc -DFOO=2 -c b.c"] "FOO"
    ["1", "2"] "1" (by decide) (by decide) (by decide) (by decide) (by decide)

/-- C3 counterexample: on the spec's end-to-end scenario the flag set is not
the claimed one: it contains neither the pair `(-I, /inc)` (the token `-I/inc`
stays a single bare flag) nor `-DX=2` (the smaller value `-DX=1` wins). -/
theorem claim_C3_counterexample :
    (parse_flags ["cc -I/inc -DX=1 -Wall -c a.c -o a.o",
        "cc -I/inc -DX=2 -Wall -c b.c -o b.o"]).2.2 ≠
      [Flag.str "-DX=2", Flag.str "-Wall", Flag.pair "-I" "/inc"] ∧
    Flag.str "-DX=2" ∉ (parse_flags ["cc -I/inc -DX=1 -Wall -c a.c -o a.o",
        "cc -I/inc -DX=2 -Wall -c b.c -o b.o"]).2.2 ∧
    Flag.pair "-I" "/inc" ∉ (parse_flags ["cc -I/inc -DX=1 -Wall -c a.c -o a.o",
        "cc -I/inc -DX=2 -Wall -c b.c -o b.o"]).2.2 := by
  decide

/-- C3 (amended): on the two C log lines and the empty C++ log the reduction
yields relevant-count 2 for C, selects language C, and produces the Canonical
Flag Set `{-DX=1, -I/inc, -Wall}` (all bare flags, sorted). -/
theorem claim_C3_end_to_end :
    parse_flags ["cc -I/inc -DX=1 -Wall -c a.c -o a.o",
        "cc -I/inc -DX=2 -Wall -c b.c -o b.o"] =
      (2, 0, [Flag.str "-DX=1", Flag.str "-I/inc", Flag.str "-Wall"]) ∧
    parse_flags ([] : List String) = (0, 0, []) ∧
    runReduction none ["cc -I/inc -DX=1 -Wall -c a.c -o a.o",
        "cc -I/inc -DX=2 -Wall -c b.c -o b.o"] [] =
      { exitCode := 0,
        artifact := some (Lang.c,
          [Flag.str "-DX=1", Flag.str "-I/inc", Flag.str "-Wall"]),
        logsDeleted := true } := by
  decide

/-- C4 counterexample: a line containing `-S` (assembly-only output) is NOT
discarded: it increments the relevant count and not the skip count. -/
theorem claim_C4_counterexample :
    (parse_flags ["clang -S a.c -o a.s"]).1 = 1 ∧
    (parse_flags ["clang -S a.c -o a.s"]).2.1 = 0 := by
  decide

/-- C4 (amended): a log line is discarded (incrementing skip_count and not
line_count) if and only if it matches the `temp_output` pattern — it contains
`-x assembler`, or `-o ` followed by a `[a-zA-Z0-9._]` character, one
arbitrary character and `tmp`, or `/dev/null`; every other line (including
lines containing `-S` or `-E`) increments line_count. -/
theorem claim_C4_admission_filter (log : List String) :
    (parse_flags log).1 = log.countP (fun l => !tempOutputSearch l.data) ∧
    (parse_flags log).2.1 = log.countP (fun l => tempOutputSearch l.data) ∧
    (∀ line : String, tempOutputSearch line.data = true ↔ TempOutputSpec line.data) ∧
    (parse_flags ["cc -c a.c -o /dev/null"]).2.1 = 1 := by
  refine ⟨(parse_flagsW_counts log).1, (parse_flagsW_counts log).2, ?_, by decide⟩
  exact fun line => tempOutputSearch_iff line.data

/-- C5: with an explicit language override the other language's count is
forced to zero and its flags are discarded (it can never be selected);
without an override the language with the strictly greater relevant-count is
selected, and on a (nonzero) tie the second language C++ is selected. -/
theorem claim_C5_language_selection :
    (∀ cLog cxxLog : List String, ∀ fl : List Flag,
      (runReduction (some Lang.c) cLog cxxLog).artifact ≠ some (Lang.cxx, fl)) ∧
    (∀ cLog cxxLog : List String, ∀ fl : List Flag,
      (runReduction (some Lang.cxx) cLog cxxLog).artifact ≠ some (Lang.c, fl)) ∧
    (∀ cLog cxxLog : List String, (parse_flags cxxLog).1 < (parse_flags cLog).1 →
      (runReduction none cLog cxxLog).artifact =
        some (Lang.c, (parse_flags cLog).2.2)) ∧
    (∀ cLog cxxLog : List String, (parse_flags cLog).1 < (parse_flags cxxLog).1 →
      (runReduction none cLog cxxLog).artifact =
        some (Lang.cxx, (parse_flags cxxLog).2.2)) ∧
    (∀ cLog cxxLog : List String, (parse_flags cLog).1 = (parse_flags cxxLog).1 →
      (parse_flags cLog).1 ≠ 0 →
      (runReduction none cLog cxxLog).artifact =
        some (Lang.cxx, (parse_flags cxxLog).2.2)) := by
  refine ⟨?_, ?_, ?_, ?_, ?_⟩
  · intro cLog cxxLog fl
    by_cases h0 : (parse_flags cLog).1 = 0
    · simp [runReduction, h0]
    · have hpos : 0 < (parse_flags cLog).1 := Nat.pos_of_ne_zero h0
      simp [runReduction, h0, hpos]
  · intro cLog cxxLog fl
    by_cases h0 : (parse_flags cxxLog).1 = 0 <;> simp [runReduction, h0]
  · intro cLog cxxLog hlt
    have h1 : ¬((parse_flags cLog).1 = 0 ∧ (parse_flags cxxLog).1 = 0) := by omega
    simp [runReduction, h1, hlt]
  · intro cLog cxxLog hlt
    have h1 : ¬((parse_flags cLog).1 = 0 ∧ (parse_flags cxxLog).1 = 0) := by omega
    have h2 : ¬((parse_flags cxxLog).1 < (parse_flags cLog).1) := by omega
    simp [runReduction, h1, h2]
  · intro cLog cxxLog heq hne
    have h1 : ¬((parse_flags cLog).1 = 0 ∧ (parse_flags cxxLog).1 = 0) := by omega
    have h2 : ¬((parse_flags cxxLog).1 < (parse_flags cLog).1) := by omega
    simp [runReduction, h1, h2]

/-- Witness for C5: a nonzero tie (one relevant line each) selects C++. -/
theorem claim_C5_witness :
    (parse_flags ["cc -c a.c"]).1 = (parse_flags ["c++ -Wall -c b.cpp"]).1 ∧
    (parse_flags ["cc -c a.c"]).1 ≠ 0 ∧
    (runReduction none ["cc -c a.c"] ["c++ -Wall -c b.cpp"]).artifact =
      some (Lang.cxx, (parse_flags ["c++ -Wall -c b.cpp"]).2.2) :=
  ⟨by decide, by decide,
    claim_C5_language_selection.2.2.2.2 ["cc -c a.c"] ["c++ -Wall -c b.cpp"]
      (by decide) (by decide)⟩

/-- C6: when both effective relevant-counts are zero the run fails with exit
status 3 (distinct from the unrecognized-build-system exit status 2), writes
no configuration artifact, and preserves the per-language log files. -/
theorem claim_C6_empty_log_failure (force : Option Lang) (cLog cxxLog : List String)
    (hc : (if force = some Lang.cxx then 0 else (parse_flags cLog).1) = 0)
    (hx : (if force = some Lang.c then 0 else (parse_flags cxxLog).1) = 0) :
    runReduction force cLog cxxLog =
      { exitCode := 3, artifact := none, logsDeleted := false } ∧
    (3 : Nat) ≠ unrecognizedBuildSystemExit := by
  refine ⟨?_, by decide⟩
  simp [runReduction, hc, hx]

/-- Witness for C6 at empty logs and no override. -/
theorem claim_C6_witness :
    runReduction none [] [] = { exitCode := 3, artifact := none, logsDeleted := false } ∧
    (3 : Nat) ≠ unrecognizedBuildSystemExit :=
  claim_C6_empty_log_failure none [] [] (by decide) (by decide)

/-- C7: if the collected flag set holds more than one bare `-m<digits>` flag,
the collapse removes all of them and re-inserts only the string-maximum one;
a log contributing `-m32` and `-m64` yields a set containing `-m64` and not
`-m32`. -/
theorem claim_C7_word_size_collapse :
    (∀ fl : List Flag, 1 < (fl.filter isWordSizeFlag).length →
      ∃ m, (m ∈ fl ∧ isWordSizeFlag m = true ∧
          ∀ x ∈ fl, isWordSizeFlag x = true → flagLE x m = true) ∧
        ∀ x, x ∈ collapseWordSize fl ↔
          ((x ∈ fl ∧ isWordSizeFlag x = false) ∨ x = m)) ∧
    (Flag.str "-m64" ∈ (parse_flags ["cc -m32 -c a.c", "cc -m64 -c b.c"]).2.2 ∧
     Flag.str "-m32" ∉ (parse_flags ["cc -m32 -c a.c", "cc -m64 -c b.c"]).2.2) := by
  constructor
  · intro fl hl
    have hne : fl.filter isWordSizeFlag ≠ [] := by
      intro h
      rw [h] at hl
      simp at hl
    obtain ⟨m, hm⟩ := maxFlag_isSome hne
    obtain ⟨hmem, hall⟩ := maxFlag_spec hm
    refine ⟨m, ⟨(List.mem_filter.mp hmem).1, (List.mem_filter.mp hmem).2, ?_⟩, ?_⟩
    · intro x hx hws
      exact hall x (List.mem_filter.mpr ⟨hx, hws⟩)
    · intro x
      unfold collapseWordSize
      rw [if_pos hl, hm]
      rw [mem_setAdd]
      simp [List.mem_filter]
  · exact ⟨by decide, by decide⟩

/-- Witness for C7 at a concrete set holding both `-m32` and `-m64`. -/
theorem claim_C7_witness :
    ∃ m, (m ∈ [Flag.str "-m32", Flag.str "-m64", Flag.str "-Wall"] ∧
        isWordSizeFlag m = true ∧
        ∀ x ∈ [Flag.str "-m32", Flag.str "-m64", Flag.str "-Wall"],
          isWordSizeFlag x = true → flagLE x m = true) ∧
      ∀ x, x ∈ collapseWordSize [Flag.str "-m32", Flag.str "-m64", Flag.str "-Wall"] ↔
        ((x ∈ [Flag.str "-m32", Flag.str "-m64", Flag.str "-Wall"] ∧
          isWordSizeFlag x = false) ∨ x = m) :=
  claim_C7_word_size_collapse.1 [Flag.str "-m32", Flag.str "-m64", Flag.str "-Wall"]
    (by decide)

/-- C8 counterexample: the token `-stdlib=libc++` does not pass the whitelist
(the `-(no)?std(lib|inc)` alternative is anchored and admits no `=value`
suffix), so a line carrying it contributes no flag at all. -/
theorem claim_C8_counterexample :
    whitelistMatch "-stdlib=libc++".data = false ∧
    (parse_flags ["cc -stdlib=libc++ -c a.c"]).2.2 = [] := by
  decide

/-- C8 (amended): a token beginning with `-` is kept exactly when it matches
`-[iIDF]` followed by anything, `-W` with no comma anywhere after it,
`-std=` followed by a nonempty run of lowercase letters, digits or `+`,
exactly one of the bare tokens `-stdlib` / `-stdinc` / `-nostdlib` /
`-nostdinc` (a `-stdlib=<value>` token is dropped), or `-m` followed by
digits. -/
theorem claim_C8_whitelist :
    (∀ w : List Char, whitelistMatch w = true ↔ whitelistSpec w) ∧
    (∀ v : String, whitelistMatch ("-stdlib=" ++ v).data = false) := by
  refine ⟨whitelistMatch_iff, ?_⟩
  intro v
  have hdata : ("-stdlib=" ++ v).data =
      '-' :: 's' :: 't' :: 'd' :: 'l' :: 'i' :: 'b' :: '=' :: v.data := by
    rw [String.data_append]
    rfl
  rw [Bool.eq_false_iff]
  intro hw
  rcases (whitelistMatch_iff _).mp hw with ⟨c, rest, heq, hc⟩ | ⟨rest, heq, -⟩ |
    ⟨rest, heq, -⟩ | heq | heq | heq | heq | ⟨rest, heq, -⟩ <;>
    rw [hdata] at heq
  · injection heq with h1 h2
    injection h2 with h3 h4
    subst h3
    revert hc
    decide
  · injection heq with h1 h2
    injection h2 with h3 h4
    exact absurd h3 (by decide)
  · injection heq with h1 h2
    injection h2 with h3 h4
    injection h4 with h5 h6
    injection h6 with h7 h8
    injection h8 with h9 h10
    exact absurd h9 (by decide)
  · injection heq with h1 h2
    injection h2 with h3 h4
    injection h4 with h5 h6
    injection h6 with h7 h8
    injection h8 with h9 h10
    injection h10 with h11 h12
    injection h12 with h13 h14
    exact absurd h14 (by simp)
  · injection heq with h1 h2
    injection h2 with h3 h4
    injection h4 with h5 h6
    injection h6 with h7 h8
    injection h8 with h9 h10
    exact absurd h9 (by decide)
  · injection heq with h1 h2
    injection h2 with h3 h4
    exact absurd h3 (by decide)
  · injection heq with h1 h2
    injection h2 with h3 h4
    exact absurd h3 (by decide)
  · injection heq with h1 h2
    injection h2 with h3 h4
    exact absurd h3 (by decide)

/-- C9: every line is counted exactly once: line_count plus skip_count equals
the number of lines in the log. -/
theorem claim_C9_line_accounting (log : List String) :
    (parse_flags log).1 + (parse_flags log).2.1 = log.length := by
  have h := parse_flagsW_counts log
  show (parse_flagsW log).1 + (parse_flagsW log).2.1 = log.length
  rw [h.1, h.2]
  exact countP_not_add_countP (fun l => lineSkipped l) log

/-- C10: the flag set returned by `parse_flags` never contains `-o`, neither
as a bare flag nor as the option of a pair — even though `-o` is listed in
`filename_flags` — because `-o` never passes the whitelist; and every bare
flag in the output begins with `-`. -/
theorem claim_C10_no_output_o (log : List String) :
    "-o".data ∈ filename_flags ∧ whitelistMatch "-o".data = false ∧
    ∀ f ∈ (parse_flags log).2.2, FlagOK f := by
  refine ⟨by decide, by decide, ?_⟩
  intro f hf
  rcases mem_parse_flags_cases hf with hinv | ⟨m, hm, rfl⟩
  · exact PFlagInv_FlagOK hinv
  · refine ⟨?_, ?_⟩
    · rw [data_defineFlagStr]
      rfl
    · intro hcontra
      have hdc := congrArg String.data hcontra
      rw [data_defineFlagStr] at hdc
      simp at hdc

/-- Witness for C10 at a concrete log and output flag. -/
theorem claim_C10_witness : FlagOK (Flag.str "-Wall") :=
  (claim_C10_no_output_o ["cc -Wall -c a.c"]).2.2 (Flag.str "-Wall") (by decide)

end YcmGen
